import Mathlib

/-!
Verification development for the task-orchestration core of
`youtube_downloader_api.py`: the in-memory progress store, the background
executor `run_download` with its `progress_hook`, the batch endpoint
`start_download`, the SSE generator of `progress_sse`, and the
format/quality resolver of `get_formats`.

Python dictionaries with a fixed key set are modelled as structures whose
possibly-absent values are `Option` fields; machine strings are `String`,
byte counts are `Nat`.  The external collaborator `yt_dlp.YoutubeDL
.extract_info` is modelled by a `FetchOutcome`: the ordered list of
progress callbacks it delivers, whether it raises, and the listing of the
task's working directory afterwards.
-/

namespace YtApi

/-- Task status strings stored in `progress_store`: the code writes exactly
`"queued"`, `"downloading"`, `"finished"` and `"error"`. -/
inductive Status where
  | queued
  | downloading
  | finished
  | error
deriving DecidableEq

/-- Rank of a status under the order queued < downloading < terminal. -/
def Status.rank : Status → Nat
  | .queued => 0
  | .downloading => 1
  | .finished => 2
  | .error => 2

/-- One entry of `progress_store`: the dict
`{status, downloaded_bytes, total_bytes, file_path}`.  The spec also names
an `error_info` attribute; the code never stores such a key, which we model
as an `Option` field no code path assigns. -/
structure Entry where
  status : Status
  downloaded_bytes : Nat
  total_bytes : Nat
  file_path : Option String
  error_info : Option String
deriving DecidableEq

/-- The entry installed by `start_download`:
`{"status":"queued","downloaded_bytes":0,"total_bytes":0,"file_path":None}`. -/
def initEntry : Entry :=
  { status := .queued, downloaded_bytes := 0, total_bytes := 0,
    file_path := none, error_info := none }

/-- The dict `d` passed by yt-dlp to a progress hook, restricted to the keys
the hook reads: `status`, `downloaded_bytes`, `total_bytes`,
`total_bytes_estimate`.  Absent keys are `none`. -/
structure ProgressData where
  status : Option String
  downloaded_bytes : Option Nat
  total_bytes : Option Nat
  total_bytes_estimate : Option Nat
deriving DecidableEq

/-- Python truthiness of `a or b` for an optional number `a`: `None` and `0`
are falsy, so the right operand is used in exactly those cases. -/
def pyOr (a : Option Nat) (b : Nat) : Nat :=
  match a with
  | none => b
  | some n => if n = 0 then b else n

/-- The effective total written by the hook:
`d.get("total_bytes") or d.get("total_bytes_estimate", 0)`. -/
def effTotal (d : ProgressData) : Nat :=
  pyOr d.total_bytes (d.total_bytes_estimate.getD 0)

/-- `progress_hook` from `run_download`: on a `"downloading"` callback it
overwrites status, `downloaded_bytes` and `total_bytes` of the task's entry;
any other callback is ignored. -/
def progress_hook (d : ProgressData) (st : Entry) : Entry :=
  if d.status = some "downloading" then
    { st with
      status := .downloading,
      downloaded_bytes := d.downloaded_bytes.getD 0,
      total_bytes := effTotal d }
  else st

/-- The entry after a list of progress callbacks has been delivered. -/
def applyHooks (st : Entry) (events : List ProgressData) : Entry :=
  events.foldl (fun s d => progress_hook d s) st

/-- The registry states observed while the callbacks are delivered,
starting with the state before the first callback. -/
def hookTrace (st : Entry) : List ProgressData → List Entry
  | [] => [st]
  | d :: rest => st :: hookTrace (progress_hook d st) rest

/-- `audio_exts = {"mp3","aac","wav","flac","m4a","opus"}`. -/
def audio_exts : List String := ["mp3", "aac", "wav", "flac", "m4a", "opus"]

/-- `video_exts = {"mp4","webm","mkv","avi"}`. -/
def video_exts : List String := ["mp4", "webm", "mkv", "avi"]

/-- `s.lower()`, character-wise over the string's characters. -/
def pyLower (s : String) : String :=
  ⟨s.data.map Char.toLower⟩

/-- `s.endswith(suffix)`, over the strings' characters. -/
def pyEndsWith (s suffix : String) : Bool :=
  List.isSuffixOf suffix.data s.data

/-- The decimal value of a digit string, as computed by `int(s)`. -/
def digitsVal (s : String) : Nat :=
  s.data.foldl (fun n c => n * 10 + (c.toNat - 48)) 0

/-- `int(quality) if quality and quality.isdigit() else None`: an empty or
absent string is falsy, otherwise the numeral is parsed when all characters
are digits. -/
def parseIntQ (q : Option String) : Option Nat :=
  match q with
  | none => none
  | some s =>
      if s ≠ "" ∧ s.data.all Char.isDigit then some (digitsVal s) else none

/-- The yt-dlp options `run_download` builds, restricted to the fields the
claims reason about: the format-selection expression, the keys of the
requested post-processors, and `merge_output_format`. -/
structure Opts where
  format : String
  postprocessors : List String
  merge_output_format : Option String
deriving DecidableEq

/-- Construction of the yt-dlp options for a (lower-cased) format selector
`f` and the raw quality string, following the audio / mp4 / other-video
branches of `run_download`.  Unrecognised selectors reach neither branch
(the caller errors out first); they are given empty options here. -/
def buildOpts (f : String) (quality : Option String) : Opts :=
  if f ∈ audio_exts then
    { format :=
        match parseIntQ quality with
        | some a => "bestaudio[abr<=" ++ toString a ++ "]/bestaudio"
        | none => "bestaudio",
      postprocessors := ["FFmpegExtractAudio"],
      merge_output_format := none }
  else if f ∈ video_exts then
    if f = "mp4" then
      match parseIntQ quality with
      | some h =>
          { format := "bestvideo[height<=" ++ toString h ++ "]+bestaudio/best",
            postprocessors := ["FFmpegVideoConvertor"],
            merge_output_format := some f }
      | none =>
          { format := "best[ext=mp4]/best",
            postprocessors := [],
            merge_output_format := none }
    else
      { format :=
          match parseIntQ quality with
          | some h => "bestvideo[height<=" ++ toString h ++ "]+bestaudio/best"
          | none => "bestvideo+bestaudio",
        postprocessors := ["FFmpegVideoConvertor"],
        merge_output_format := some f }
  else
    { format := "", postprocessors := [], merge_output_format := none }

/-- `fn.lower().endswith("." + target_ext)`. -/
def matchesExt (f fn : String) : Bool :=
  pyEndsWith (pyLower fn) ("." ++ f)

/-- Artifact selection after a successful fetch: the first directory entry
whose lower-cased name ends in the requested extension wins; otherwise the
first remaining file; an empty directory is an error. -/
def pickAndFinish (tempDir f : String) (files : List String) (st : Entry) : Entry :=
  match files.find? (matchesExt f) with
  | some fn =>
      { st with status := .finished, file_path := some (tempDir ++ "/" ++ fn) }
  | none =>
      match files with
      | fn :: _ =>
          { st with status := .finished, file_path := some (tempDir ++ "/" ++ fn) }
      | [] => { st with status := .error }

/-- Behaviour of one `ydl.extract_info(url, download=True)` call: the
progress callbacks it delivers in order, whether it raises, and the listing
of the working directory afterwards (`os.listdir` / `os.scandir` order). -/
structure FetchOutcome where
  events : List ProgressData
  raises : Bool
  files : List String
deriving DecidableEq

/-- Result of one `run_download` execution: the final registry entry for
the task, whether the underlying yt-dlp operation was invoked, and the
sequence of registry states the task's entry went through (first element:
the state on entry to `run_download`). -/
structure RunResult where
  final : Entry
  invoked : Bool
  trace : List Entry
deriving DecidableEq

/-- The `try` block of `run_download`: deliver the callbacks; on an
exception mark the task `error`, otherwise select the artifact. -/
def runFetch (tempDir f : String) (oc : FetchOutcome) (st : Entry) : RunResult :=
  let afterHooks := applyHooks st oc.events
  let final :=
    if oc.raises then { afterHooks with status := .error }
    else pickAndFinish tempDir f oc.files afterHooks
  { final := final, invoked := true, trace := hookTrace st oc.events ++ [final] }

/-- `run_download(task_id, url, fmt, quality)` as a state transformer on the
task's registry entry `st`.  `ffmpeg` is the process-wide `FFMPEG_EXISTS`
flag; `oc` is the behaviour of the yt-dlp collaborator; `tempDir` is the
private working directory created for the task. -/
def run_download (ffmpeg : Bool) (fmt : String) (quality : Option String)
    (tempDir : String) (oc : FetchOutcome) (st : Entry) : RunResult :=
  let f := pyLower fmt
  let _opts := buildOpts f quality
  if f ∈ audio_exts then
    if ffmpeg then runFetch tempDir f oc st
    else
      { final := { st with status := .error }, invoked := false,
        trace := [st, { st with status := .error }] }
  else if f ∈ video_exts then
    runFetch tempDir f oc st
  else
    { final := { st with status := .error }, invoked := false,
      trace := [st, { st with status := .error }] }

/-- One item of the `/download` request body, with the keys
`start_download` reads (`it.get(...)`). -/
structure Item where
  url : Option String
  fmt : Option String
  quality : Option String
deriving DecidableEq

/-- Python truthiness of the url: `if not url: continue` skips a missing or
empty string. -/
def validUrl : Option String → Bool
  | none => false
  | some s => s ≠ ""

/-- Task-identifier generation for the accepted items:  `uuid.uuid4()`
produces a fresh identifier per accepted item, modelled by the item's
position in the batch. -/
def collect_ids (i : Nat) : List Item → List Nat
  | [] => []
  | it :: rest =>
      if validUrl it.url then i :: collect_ids (i + 1) rest
      else collect_ids (i + 1) rest

/-- `start_download`: a missing / non-list / empty `items` payload is the
`400 "No items provided"` rejection; otherwise items with falsy urls are
skipped and each remaining item yields one fresh task identifier. -/
def start_download (items : Option (List Item)) : Except String (List Nat) :=
  match items with
  | none => Except.error "No items provided"
  | some its =>
      if its.isEmpty then Except.error "No items provided"
      else Except.ok (collect_ids 0 its)

/-- `d["status"] in ("finished","error")`. -/
def isTerminal (s : Status) : Bool :=
  match s with
  | .finished => true
  | .error => true
  | _ => false

/-- The SSE generator `gen()` of `progress_sse`, over the sequence
`states i` of registry snapshots read at successive polling ticks.  The
loop yields the snapshot it read and exits as soon as that snapshot is
terminal; `fuel` bounds the number of iterations so that the function is
total — the theorems quantify over sufficient fuel. -/
def gen (states : Nat → Entry) : Nat → Nat → List Entry
  | 0, _ => []
  | fuel + 1, i =>
      let d := states i
      d :: (if isTerminal d.status then [] else gen states fuel (i + 1))

/-- One yt-dlp format dict, restricted to the keys `get_formats` reads.
`tbr` is accessed as `f["tbr"]` (present on the descriptors the endpoint
handles); quality metrics may be absent. -/
structure Fmt where
  vcodec : Option String
  acodec : Option String
  height : Option Nat
  abr : Option Nat
  tbr : Nat
deriving DecidableEq

/-- `f.get("vcodec") != "none" and f.get("acodec") == "none"`. -/
def video_ok (f : Fmt) : Bool :=
  (f.vcodec != some "none") && (f.acodec == some "none")

/-- `f.get("acodec") != "none" and f.get("vcodec") == "none"`. -/
def audio_ok (f : Fmt) : Bool :=
  (f.acodec != some "none") && (f.vcodec == some "none")

/-- Dict lookup on an association list keyed by the quality metric. -/
def getVal (m : List (Nat × Nat)) (k : Nat) : Option Nat :=
  match m with
  | [] => none
  | p :: rest => if p.1 = k then some p.2 else getVal rest k

/-- Dict assignment to an existing key. -/
def setKey : List (Nat × Nat) → Nat → Nat → List (Nat × Nat)
  | [], _, _ => []
  | p :: rest, k, v => (if p.1 = k then (k, v) else p) :: setKey rest k v

/-- One step of the deduplication loop of `get_formats`:
`if metric and (metric not in map or f["tbr"] > map[metric]["tbr"]):
map[metric] = {..., "tbr": f["tbr"]}` guarded by the class check `ok`.
Python truthiness of the metric excludes `None` and `0`. -/
def dedupStep (ok : Fmt → Bool) (metric : Fmt → Option Nat)
    (m : List (Nat × Nat)) (f : Fmt) : List (Nat × Nat) :=
  if ok f then
    match metric f with
    | some h =>
        if h ≠ 0 then
          match getVal m h with
          | none => m ++ [(h, f.tbr)]
          | some t => if t < f.tbr then setKey m h f.tbr else m
        else m
    | none => m
  else m

/-- `video_map` after the loop over all formats. -/
def video_map (fmts : List Fmt) : List (Nat × Nat) :=
  fmts.foldl (dedupStep video_ok Fmt.height) []

/-- `audio_map` after the loop over all formats. -/
def audio_map (fmts : List Fmt) : List (Nat × Nat) :=
  fmts.foldl (dedupStep audio_ok Fmt.abr) []

/-- `label_from_height`. -/
def label_from_height (h : Nat) : String :=
  if h ≥ 2160 then "4K"
  else if h ≥ 1440 then "2K"
  else if h ≥ 1080 then "1080p"
  else if h ≥ 720 then "720p"
  else toString h ++ "p"

/-- `sorted(keys, reverse=True)`: the keys in descending order. -/
def sortDesc (l : List Nat) : List Nat :=
  l.insertionSort (fun a b => b ≤ a)

/-- The response body of `GET /formats`: per class, the deduplicated metric
values in descending order with their labels. -/
def get_formats (fmts : List Fmt) : List (Nat × String) × List (Nat × String) :=
  (((sortDesc ((video_map fmts).map Prod.fst))).map
      (fun h => (h, label_from_height h)),
   ((sortDesc ((audio_map fmts).map Prod.fst))).map
      (fun a => (a, toString a ++ " kbps")))

/-- The descriptors of `fmts` that the class loop accepts for metric value
`h`, reduced to their overall bitrates, in catalog order. -/
def metricTbrs (ok : Fmt → Bool) (metric : Fmt → Option Nat)
    (fmts : List Fmt) (h : Nat) : List Nat :=
  ((fmts.filter (fun f => ok f && (metric f == some h) && (h != 0)))).map Fmt.tbr

/-! ### Helper lemmas about the progress hook and the executor trace -/

lemma progress_hook_file_path (d : ProgressData) (s : Entry) :
    (progress_hook d s).file_path = s.file_path := by
  unfold progress_hook; split <;> rfl

lemma progress_hook_error_info (d : ProgressData) (s : Entry) :
    (progress_hook d s).error_info = s.error_info := by
  unfold progress_hook; split <;> rfl

lemma progress_hook_status (d : ProgressData) (s : Entry) :
    (progress_hook d s).status = s.status ∨
      (progress_hook d s).status = Status.downloading := by
  unfold progress_hook; split
  · right; rfl
  · left; rfl

lemma Status.rank_le_two (s : Status) : s.rank ≤ 2 := by
  cases s <;> simp [Status.rank]

lemma hookTrace_head (st : Entry) (evs : List ProgressData) :
    ∃ tl, hookTrace st evs = st :: tl := by
  cases evs <;> exact ⟨_, rfl⟩

lemma hookTrace_mem_fields (st : Entry) (evs : List ProgressData) :
    ∀ e ∈ hookTrace st evs,
      e.file_path = st.file_path ∧ e.error_info = st.error_info := by
  induction evs generalizing st with
  | nil =>
      intro e he
      simp [hookTrace] at he
      subst he; exact ⟨rfl, rfl⟩
  | cons d rest ih =>
      intro e he
      simp only [hookTrace, List.mem_cons] at he
      rcases he with rfl | he
      · exact ⟨rfl, rfl⟩
      · have h := ih (progress_hook d st) e he
        rw [progress_hook_file_path, progress_hook_error_info] at h
        exact h

lemma hookTrace_rank (st : Entry) (evs : List ProgressData)
    (h : st.status.rank ≤ 1) :
    (∀ e ∈ hookTrace st evs, e.status.rank ≤ 1) ∧
      List.Chain' (fun a b : Entry => a.status.rank ≤ b.status.rank)
        (hookTrace st evs) := by
  induction evs generalizing st with
  | nil =>
      refine ⟨?_, by simp [hookTrace]⟩
      intro e he; simp [hookTrace] at he; subst he; exact h
  | cons d rest ih =>
      have hrank : (progress_hook d st).status.rank ≤ 1 ∧
          st.status.rank ≤ (progress_hook d st).status.rank := by
        rcases progress_hook_status d st with hs | hs
        · rw [hs]; exact ⟨h, le_refl _⟩
        · rw [hs]; exact ⟨by simp [Status.rank], by simpa [Status.rank] using h⟩
      have ihh := ih (progress_hook d st) hrank.1
      constructor
      · intro e he
        simp only [hookTrace, List.mem_cons] at he
        rcases he with rfl | he
        · exact h
        · exact ihh.1 e he
      · show List.Chain' _ (st :: hookTrace (progress_hook d st) rest)
        rcases hookTrace_head (progress_hook d st) rest with ⟨tl, htl⟩
        rw [htl]
        exact List.Chain'.cons (by rw [← htl] at *; exact hrank.2)
          (htl ▸ ihh.2)

lemma pickAndFinish_status (tempDir f : String) (files : List String)
    (st : Entry) :
    (pickAndFinish tempDir f files st).status = Status.finished ∨
      (pickAndFinish tempDir f files st).status = Status.error := by
  unfold pickAndFinish
  rcases files.find? (matchesExt f) with _ | fn
  · cases files with
    | nil => right; rfl
    | cons a l => left; rfl
  · left; rfl

lemma runFetch_final_terminal (tempDir f : String) (oc : FetchOutcome)
    (st : Entry) :
    isTerminal (runFetch tempDir f oc st).final.status = true := by
  unfold runFetch
  by_cases hr : oc.raises
  · simp [hr, isTerminal]
  · simp only [hr, if_false, Bool.false_eq_true]
    rcases pickAndFinish_status tempDir f oc.files (applyHooks st oc.events)
      with hs | hs <;> simp [hs, isTerminal]

/-! ### C2: status monotonicity and terminal stickiness -/

/-- C2 (amended): along the update sequences the executor actually applies
to a task's entry — the progress callbacks delivered during the fetch
followed by a single terminal transition — the observed status sequence is
non-decreasing under queued < downloading < {finished, error}, and the
final state is terminal.  (The update functions themselves do not guard
terminal states; see the counterexample.) -/
theorem run_download_status_monotone (ffmpeg : Bool) (fmt : String)
    (quality : Option String) (tempDir : String) (oc : FetchOutcome) :
    List.Chain' (fun a b : Entry => a.status.rank ≤ b.status.rank)
      ((run_download ffmpeg fmt quality tempDir oc initEntry).trace) ∧
    isTerminal
      ((run_download ffmpeg fmt quality tempDir oc initEntry).final.status)
      = true := by
  have hinit : initEntry.status.rank ≤ 1 := by simp [initEntry, Status.rank]
  have hfetch : ∀ f, List.Chain'
      (fun a b : Entry => a.status.rank ≤ b.status.rank)
      ((runFetch tempDir f oc initEntry).trace) := by
    intro f
    unfold runFetch
    rcases hookTrace_rank initEntry oc.events hinit with ⟨hmem, hchain⟩
    refine List.Chain'.append hchain (by simp) ?_
    intro x hx y hy
    simp only [List.head?_cons, Option.mem_def, Option.some.injEq] at hy
    subst hy
    calc x.status.rank ≤ 2 := Status.rank_le_two _
    _ ≤ _ := by
        by_cases hr : oc.raises
        · simp [hr, Status.rank]
        · simp only [hr, if_false, Bool.false_eq_true]
          rcases pickAndFinish_status tempDir f oc.files
            (applyHooks initEntry oc.events) with hs | hs <;>
            simp [hs, Status.rank]
  have herr : List.Chain' (fun a b : Entry => a.status.rank ≤ b.status.rank)
      [initEntry, { initEntry with status := Status.error }] := by
    simp [initEntry, Status.rank]
  unfold run_download
  by_cases ha : pyLower fmt ∈ audio_exts
  · simp only [ha, if_true]
    by_cases hff : ffmpeg
    · simp only [hff, if_true]
      exact ⟨hfetch _, runFetch_final_terminal _ _ _ _⟩
    · simp only [hff, Bool.false_eq_true, if_false]
      exact ⟨herr, rfl⟩
  · simp only [ha, if_false]
    by_cases hv : pyLower fmt ∈ video_exts
    · simp only [hv, if_true]
      exact ⟨hfetch _, runFetch_final_terminal _ _ _ _⟩
    · simp only [hv, if_false]
      exact ⟨herr, rfl⟩

/-- C2 counterexample: the registry update performed by a progress callback
does not check for a terminal state.  Applied to an entry already
`finished`, a `"downloading"` callback is not a no-op: it moves the status
back to `downloading`, violating both stickiness and monotonicity. -/
theorem progress_hook_not_sticky :
    ({ initEntry with status := Status.finished } : Entry).status
        = Status.finished ∧
    progress_hook ⟨some "downloading", some 5, some 10, none⟩
        { initEntry with status := Status.finished }
      ≠ { initEntry with status := Status.finished } ∧
    (progress_hook ⟨some "downloading", some 5, some 10, none⟩
        { initEntry with status := Status.finished }).status
      = Status.downloading := by
  refine ⟨rfl, ?_, rfl⟩
  decide

/-! ### C3: stored total under successive reports -/

/-- C3 (amended): the registry keeps the **most recently** reported total,
not the larger of two successive reports: after any sequence of callbacks
the stored `total_bytes` equals the effective total of the last
`"downloading"` callback (the exact total if truthy, else the estimate,
else 0), and is unchanged when no such callback occurred.  A later smaller
report therefore overwrites a larger stored value. -/
theorem applyHooks_total_eq_last_report (st : Entry)
    (events : List ProgressData) :
    (applyHooks st events).total_bytes =
      match (events.filter
          (fun d => d.status == some "downloading")).getLast? with
      | some d => effTotal d
      | none => st.total_bytes := by
  induction events generalizing st with
  | nil => rfl
  | cons d rest ih =>
      by_cases hd : d.status = some "downloading"
      · have hfilter : (d :: rest).filter
            (fun d => d.status == some "downloading") =
            d :: rest.filter (fun d => d.status == some "downloading") := by
          simp [List.filter_cons, hd]
        have happly : applyHooks st (d :: rest) =
            applyHooks (progress_hook d st) rest := rfl
        rw [happly, ih, hfilter]
        have hhook : (progress_hook d st).total_bytes = effTotal d := by
          simp [progress_hook, hd]
        rcases hrest : rest.filter (fun d => d.status == some "downloading")
          with _ | ⟨d', l⟩
        · rw [hrest]; exact hhook
        · rw [hrest, List.getLast?_cons_cons]
          rcases hlast : (d' :: l).getLast? with _ | x
          · exact absurd (List.getLast?_eq_none_iff.mp hlast) (by simp)
          · rfl
      · have hfilter : (d :: rest).filter
            (fun d => d.status == some "downloading") =
            rest.filter (fun d => d.status == some "downloading") := by
          simp [List.filter_cons, hd]
        have happly : applyHooks st (d :: rest) =
            applyHooks (progress_hook d st) rest := rfl
        have hhook : progress_hook d st = st := by
          simp [progress_hook, hd]
        rw [happly, hhook, ih, hfilter]

/-- C3 counterexample: two successive reports with totals 100 then 50 leave
50 in the registry, not the larger of the two. -/
theorem total_units_regresses :
    (applyHooks initEntry
      [⟨some "downloading", some 10, some 100, none⟩]).total_bytes = 100 ∧
    (applyHooks initEntry
      [⟨some "downloading", some 10, some 100, none⟩,
       ⟨some "downloading", some 20, some 50, none⟩]).total_bytes = 50 ∧
    (50 : Nat) ≠ max 100 50 := by
  refine ⟨rfl, rfl, by decide⟩

/-! ### C4: downloaded vs total -/

/-- C4 (amended): the hook stores the reported values verbatim, with no
clamping; consequently `downloaded_units ≤ total_units` holds after every
update exactly when the initial entry and every `"downloading"` callback
already satisfy it. -/
theorem applyHooks_bound_of_reports (st : Entry) (events : List ProgressData)
    (h0 : st.total_bytes ≠ 0 → st.downloaded_bytes ≤ st.total_bytes)
    (h : ∀ d ∈ events, d.status = some "downloading" →
        effTotal d ≠ 0 → d.downloaded_bytes.getD 0 ≤ effTotal d) :
    ∀ e ∈ hookTrace st events,
      e.total_bytes ≠ 0 → e.downloaded_bytes ≤ e.total_bytes := by
  induction events generalizing st with
  | nil =>
      intro e he
      simp [hookTrace] at he; subst he; exact h0
  | cons d rest ih =>
      intro e he
      simp only [hookTrace, List.mem_cons] at he
      rcases he with rfl | he
      · exact h0
      · refine ih (progress_hook d st) ?_ ?_ e he
        · by_cases hd : d.status = some "downloading"
          · have h1 : (progress_hook d st).downloaded_bytes
                = d.downloaded_bytes.getD 0 := by simp [progress_hook, hd]
            have h2 : (progress_hook d st).total_bytes = effTotal d := by
              simp [progress_hook, hd]
            intro hne
            rw [h2] at hne
            rw [h1, h2]
            exact h d (List.mem_cons_self d rest) hd hne
          · have hs : progress_hook d st = st := by simp [progress_hook, hd]
            rw [hs]; exact h0
        · intro d' hd'; exact h d' (List.mem_cons_of_mem d hd')

/-- Witness for `applyHooks_bound_of_reports` at a concrete callback
sequence. -/
theorem applyHooks_bound_of_reports_witness :
    ((initEntry.total_bytes ≠ 0 → initEntry.downloaded_bytes ≤ initEntry.total_bytes) ∧
      (∀ d ∈ [(⟨some "downloading", some 50, some 100, none⟩ : ProgressData)],
        d.status = some "downloading" →
        effTotal d ≠ 0 → d.downloaded_bytes.getD 0 ≤ effTotal d)) ∧
    (∀ e ∈ hookTrace initEntry
        [(⟨some "downloading", some 50, some 100, none⟩ : ProgressData)],
      e.total_bytes ≠ 0 → e.downloaded_bytes ≤ e.total_bytes) :=
  ⟨⟨by decide, by decide⟩,
    applyHooks_bound_of_reports initEntry
      [⟨some "downloading", some 50, some 100, none⟩]
      (by decide) (by decide)⟩

/-- C4 counterexample: a callback reporting more downloaded units than
total units is stored verbatim, so the entry exposes a progress fraction
above 100%. -/
theorem progress_exceeds_total :
    (applyHooks initEntry
      [⟨some "downloading", some 150, some 100, none⟩]).total_bytes = 100 ∧
    (applyHooks initEntry
      [⟨some "downloading", some 150, some 100, none⟩]).downloaded_bytes
      = 150 ∧
    ¬(150 : Nat) ≤ 100 := by
  refine ⟨rfl, rfl, by decide⟩

/-! ### C5: result location and error info -/

lemma applyHooks_mem_hookTrace (st : Entry) (evs : List ProgressData) :
    applyHooks st evs ∈ hookTrace st evs := by
  induction evs generalizing st with
  | nil => simp [hookTrace, applyHooks]
  | cons d rest ih =>
      have heq : applyHooks st (d :: rest)
          = applyHooks (progress_hook d st) rest := rfl
      rw [heq]
      exact List.mem_cons_of_mem st (ih (progress_hook d st))

lemma pickAndFinish_eq_of_find (t f : String) (files : List String)
    (st : Entry) (fn : String) (h : files.find? (matchesExt f) = some fn) :
    pickAndFinish t f files st =
      { st with status := .finished, file_path := some (t ++ "/" ++ fn) } := by
  unfold pickAndFinish; rw [h]

lemma pickAndFinish_eq_of_first (t f : String) (files : List String)
    (st : Entry) (fn : String) (rest : List String)
    (hfind : files.find? (matchesExt f) = none) (hfiles : files = fn :: rest) :
    pickAndFinish t f files st =
      { st with status := .finished, file_path := some (t ++ "/" ++ fn) } := by
  unfold pickAndFinish; rw [hfind, hfiles]

lemma pickAndFinish_eq_of_empty (t f : String) (files : List String)
    (st : Entry) (hfind : files.find? (matchesExt f) = none)
    (hfiles : files = []) :
    pickAndFinish t f files st = { st with status := .error } := by
  unfold pickAndFinish; rw [hfind, hfiles]

lemma joined_path_ne_empty (t fn : String) : t ++ "/" ++ fn ≠ "" := by
  intro hc
  have hlen : (t ++ "/" ++ fn).length = 0 := by rw [hc]; rfl
  rw [String.length_append, String.length_append] at hlen
  have : ("/" : String).length = 1 := rfl
  omega

lemma pickAndFinish_spec (t f : String) (files : List String) (st : Entry) :
    (pickAndFinish t f files st).error_info = st.error_info ∧
    ((pickAndFinish t f files st).status ≠ Status.finished →
      (pickAndFinish t f files st).file_path = st.file_path) ∧
    ((pickAndFinish t f files st).status = Status.finished →
      ∃ p, (pickAndFinish t f files st).file_path = some p ∧ p ≠ "") := by
  rcases hfind : files.find? (matchesExt f) with _ | fn
  · rcases hfiles : files with _ | ⟨fn, rest⟩
    · rw [hfiles] at hfind
      rw [pickAndFinish_eq_of_empty t f [] st hfind rfl]
      exact ⟨rfl, fun _ => rfl, fun hc => absurd hc (by simp)⟩
    · rw [hfiles] at hfind
      rw [pickAndFinish_eq_of_first t f (fn :: rest) st fn rest hfind rfl]
      exact ⟨rfl, fun hc => absurd rfl hc,
        fun _ => ⟨t ++ "/" ++ fn, rfl, joined_path_ne_empty t fn⟩⟩
  · rw [pickAndFinish_eq_of_find t f files st fn hfind]
    exact ⟨rfl, fun hc => absurd rfl hc,
      fun _ => ⟨t ++ "/" ++ fn, rfl, joined_path_ne_empty t fn⟩⟩

/-- C5 (amended): in every state a task's entry goes through,
`result_location` (the stored `file_path`) is absent unless the status is
`finished`, and when an executor run ends `finished` the final entry holds
a non-empty path; but a task that reaches the failed state carries **no**
error information — the store never holds an `error_info` value, in any
state. -/
theorem result_location_and_error_info (ffmpeg : Bool) (fmt : String)
    (quality : Option String) (tempDir : String) (oc : FetchOutcome) :
    (∀ e ∈ (run_download ffmpeg fmt quality tempDir oc initEntry).trace,
        e.error_info = none ∧
          (e.status ≠ Status.finished → e.file_path = none)) ∧
    ((run_download ffmpeg fmt quality tempDir oc initEntry).final.status
        = Status.finished →
      ∃ p, (run_download ffmpeg fmt quality tempDir oc
          initEntry).final.file_path = some p ∧ p ≠ "") := by
  have hinit : initEntry.status.rank ≤ 1 := by simp [initEntry, Status.rank]
  have herrcase : ∀ e ∈ [initEntry, { initEntry with status := Status.error }],
      e.error_info = none ∧
        (e.status ≠ Status.finished → e.file_path = none) := by
    intro e he
    simp only [List.mem_cons, List.not_mem_nil, or_false] at he
    rcases he with rfl | rfl <;> exact ⟨rfl, fun _ => rfl⟩
  have hfetch : ∀ f, (∀ e ∈ (runFetch tempDir f oc initEntry).trace,
        e.error_info = none ∧
          (e.status ≠ Status.finished → e.file_path = none)) ∧
      ((runFetch tempDir f oc initEntry).final.status = Status.finished →
        ∃ p, (runFetch tempDir f oc initEntry).final.file_path
            = some p ∧ p ≠ "") := by
    intro f
    have hafterfields :=
      hookTrace_mem_fields initEntry oc.events (applyHooks initEntry oc.events)
        (applyHooks_mem_hookTrace initEntry oc.events)
    have hfinal : (∀ e, e = (runFetch tempDir f oc initEntry).final →
        e.error_info = none ∧
          (e.status ≠ Status.finished → e.file_path = none)) ∧
        ((runFetch tempDir f oc initEntry).final.status = Status.finished →
          ∃ p, (runFetch tempDir f oc initEntry).final.file_path
              = some p ∧ p ≠ "") := by
      unfold runFetch
      by_cases hr : oc.raises
      · simp only [hr, if_true]
        refine ⟨?_, ?_⟩
        · intro e he; subst he
          exact ⟨hafterfields.2, fun _ => by
            simpa [initEntry] using hafterfields.1⟩
        · intro hc; exact absurd hc (by simp)
      · simp only [hr, Bool.false_eq_true, if_false]
        have hps := pickAndFinish_spec tempDir f oc.files
          (applyHooks initEntry oc.events)
        refine ⟨?_, ?_⟩
        · intro e he; subst he
          refine ⟨by rw [hps.1]; exact hafterfields.2, ?_⟩
          intro hne
          rw [hps.2.1 hne]
          simpa [initEntry] using hafterfields.1
        · intro hfin; exact hps.2.2 hfin
    constructor
    · show ∀ e ∈ hookTrace initEntry oc.events ++
          [(runFetch tempDir f oc initEntry).final], _
      intro e he
      rcases List.mem_append.mp he with hmem | hmem
      · have hf := hookTrace_mem_fields initEntry oc.events e hmem
        have hrk := (hookTrace_rank initEntry oc.events hinit).1 e hmem
        refine ⟨by simpa [initEntry] using hf.2, fun _ => by
          simpa [initEntry] using hf.1⟩
      · simp only [List.mem_cons, List.not_mem_nil, or_false] at hmem
        exact hfinal.1 e hmem
    · exact hfinal.2
  unfold run_download
  by_cases ha : pyLower fmt ∈ audio_exts
  · simp only [ha, if_true]
    by_cases hff : ffmpeg
    · simp only [hff, if_true]; exact hfetch _
    · simp only [hff, Bool.false_eq_true, if_false]
      exact ⟨herrcase, fun hc => absurd hc (by simp)⟩
  · simp only [ha, if_false]
    by_cases hv : pyLower fmt ∈ video_exts
    · simp only [hv, if_true]; exact hfetch _
    · simp only [hv, if_false]
      exact ⟨herrcase, fun hc => absurd hc (by simp)⟩

/-- Witness for `result_location_and_error_info`: a concrete successful
run ends `finished` with a non-empty stored path, and its final entry — a
member of the trace — carries no error info. -/
theorem result_location_witness :
    ((run_download true "mp4" none "T" ⟨[], false, ["a.mp4"]⟩
        initEntry).final ∈
      (run_download true "mp4" none "T" ⟨[], false, ["a.mp4"]⟩
        initEntry).trace ∧
      ((run_download true "mp4" none "T" ⟨[], false, ["a.mp4"]⟩
          initEntry).final.error_info = none ∧
        ((run_download true "mp4" none "T" ⟨[], false, ["a.mp4"]⟩
            initEntry).final.status ≠ Status.finished →
          (run_download true "mp4" none "T" ⟨[], false, ["a.mp4"]⟩
              initEntry).final.file_path = none))) ∧
    ((run_download true "mp4" none "T" ⟨[], false, ["a.mp4"]⟩
        initEntry).final.status = Status.finished ∧
      ∃ p, (run_download true "mp4" none "T" ⟨[], false, ["a.mp4"]⟩
          initEntry).final.file_path = some p ∧ p ≠ "") :=
  ⟨⟨by decide,
    (result_location_and_error_info true "mp4" none "T"
        ⟨[], false, ["a.mp4"]⟩).1 _ (by decide)⟩,
   ⟨by decide,
    (result_location_and_error_info true "mp4" none "T"
        ⟨[], false, ["a.mp4"]⟩).2 (by decide)⟩⟩

/-- C5 counterexample: a task driven to the failed state (audio request
without the transcoding capability) has no stored error information — the
claimed `error_info` field is never present. -/
theorem failed_task_has_no_error_info :
    (run_download false "mp3" none "T" ⟨[], false, []⟩ initEntry).final.status
        = Status.error ∧
    (run_download false "mp3" none "T" ⟨[], false, []⟩
        initEntry).final.error_info = none := by
  exact ⟨by decide, by decide⟩

/-! ### C10: unrecognised format selectors -/

/-- C10: a format selector recognised neither as an audio nor as a video
extension drives the task directly from `queued` to the error state; the
fetch operation is never invoked, the progress counters stay 0 and no
result location is stored. -/
theorem run_download_unrecognized_selector (ffmpeg : Bool) (fmt : String)
    (quality : Option String) (tempDir : String) (oc : FetchOutcome)
    (h1 : pyLower fmt ∉ audio_exts) (h2 : pyLower fmt ∉ video_exts) :
    (run_download ffmpeg fmt quality tempDir oc initEntry).invoked = false ∧
    (run_download ffmpeg fmt quality tempDir oc initEntry).final.status
      = Status.error ∧
    (run_download ffmpeg fmt quality tempDir oc
      initEntry).final.downloaded_bytes = 0 ∧
    (run_download ffmpeg fmt quality tempDir oc initEntry).final.total_bytes
      = 0 ∧
    (run_download ffmpeg fmt quality tempDir oc initEntry).final.file_path
      = none ∧
    (run_download ffmpeg fmt quality tempDir oc initEntry).trace
      = [initEntry,
         (run_download ffmpeg fmt quality tempDir oc initEntry).final] := by
  unfold run_download
  simp only [h1, if_false, h2]
  exact ⟨trivial, trivial, rfl, rfl, rfl, trivial⟩

/-- Witness for `run_download_unrecognized_selector` at the selector
`"txt"`. -/
theorem run_download_unrecognized_selector_witness :
    (pyLower "txt" ∉ audio_exts ∧ pyLower "txt" ∉ video_exts) ∧
    ((run_download true "txt" none "T" ⟨[], false, []⟩ initEntry).invoked
        = false ∧
      (run_download true "txt" none "T" ⟨[], false, []⟩ initEntry).final.status
        = Status.error ∧
      (run_download true "txt" none "T" ⟨[], false, []⟩
        initEntry).final.downloaded_bytes = 0 ∧
      (run_download true "txt" none "T" ⟨[], false, []⟩
        initEntry).final.total_bytes = 0 ∧
      (run_download true "txt" none "T" ⟨[], false, []⟩
        initEntry).final.file_path = none ∧
      (run_download true "txt" none "T" ⟨[], false, []⟩ initEntry).trace
        = [initEntry,
           (run_download true "txt" none "T" ⟨[], false, []⟩
             initEntry).final]) :=
  ⟨⟨by decide, by decide⟩,
    run_download_unrecognized_selector true "txt" none "T" ⟨[], false, []⟩
      (by decide) (by decide)⟩

/-! ### C1: capability check before the fetch -/

lemma video_not_audio (s : String) (h : s ∈ video_exts) :
    s ∉ audio_exts := by
  fin_cases h <;> decide

/-- C1 (amended): only audio-extraction requests are guarded by the
transcoding-capability flag: when the flag is false they fail before the
fetch, never invoking the operation and never reaching the running state.
Requests needing non-native video conversion (a convert post-processing
step) are not checked — the operation is invoked despite the missing
capability. -/
theorem capability_check_audio_only (fmt : String) (quality : Option String)
    (tempDir : String) (oc : FetchOutcome) :
    (pyLower fmt ∈ audio_exts →
      (run_download false fmt quality tempDir oc initEntry).invoked = false ∧
      (run_download false fmt quality tempDir oc initEntry).final.status
        = Status.error ∧
      (run_download false fmt quality tempDir oc initEntry).trace
        = [initEntry,
           (run_download false fmt quality tempDir oc initEntry).final]) ∧
    (pyLower fmt ∈ video_exts →
      (buildOpts (pyLower fmt) quality).postprocessors ≠ [] →
      (run_download false fmt quality tempDir oc initEntry).invoked
        = true) := by
  constructor
  · intro ha
    unfold run_download
    simp only [ha, if_true, Bool.false_eq_true, if_false]
    exact ⟨trivial, trivial, trivial⟩
  · intro hv _
    unfold run_download
    simp only [video_not_audio _ hv, if_false, hv, if_true]
    rfl

/-- Witness for `capability_check_audio_only` at the selectors `"mp3"`
(audio, blocked) and `"webm"` (conversion, not blocked). -/
theorem capability_check_audio_only_witness :
    (pyLower "mp3" ∈ audio_exts ∧
      (run_download false "mp3" none "T" ⟨[], false, []⟩ initEntry).invoked
        = false ∧
      (run_download false "mp3" none "T" ⟨[], false, []⟩ initEntry).final.status
        = Status.error ∧
      (run_download false "mp3" none "T" ⟨[], false, []⟩ initEntry).trace
        = [initEntry,
           (run_download false "mp3" none "T" ⟨[], false, []⟩
             initEntry).final]) ∧
    (pyLower "webm" ∈ video_exts ∧
      (buildOpts (pyLower "webm") none).postprocessors ≠ [] ∧
      (run_download false "webm" none "T" ⟨[], false, []⟩ initEntry).invoked
        = true) :=
  ⟨⟨by decide,
    (capability_check_audio_only "mp3" none "T" ⟨[], false, []⟩).1 (by decide)⟩,
   ⟨by decide, by decide,
    (capability_check_audio_only "webm" none "T" ⟨[], false, []⟩).2
      (by decide) (by decide)⟩⟩

/-- C1 counterexample: a `webm` request always carries a convert
post-processing step, yet with the capability flag false the executor still
invokes the underlying operation — here the task even ends `finished` —
contradicting "never invoking the underlying operation". -/
theorem conversion_without_ffmpeg_invokes :
    (buildOpts "webm" none).postprocessors = ["FFmpegVideoConvertor"] ∧
    (run_download false "webm" none "T" ⟨[], false, ["video.webm"]⟩
      initEntry).invoked = true ∧
    (run_download false "webm" none "T" ⟨[], false, ["video.webm"]⟩
      initEntry).final.status = Status.finished := by
  exact ⟨by decide, by decide, by decide⟩

/-! ### C9: artifact selection after a successful fetch -/

lemma run_download_eq_runFetch (ffmpeg : Bool) (fmt : String)
    (quality : Option String) (tempDir : String) (oc : FetchOutcome)
    (hinv : (run_download ffmpeg fmt quality tempDir oc initEntry).invoked
      = true) :
    run_download ffmpeg fmt quality tempDir oc initEntry
      = runFetch tempDir (pyLower fmt) oc initEntry := by
  unfold run_download at hinv ⊢
  by_cases ha : pyLower fmt ∈ audio_exts
  · simp only [ha, if_true] at hinv ⊢
    by_cases hff : ffmpeg
    · simp [hff]
    · simp only [hff, Bool.false_eq_true, if_false] at hinv
  · simp only [ha, if_false] at hinv ⊢
    by_cases hv : pyLower fmt ∈ video_exts
    · simp [hv]
    · simp only [hv, if_false, Bool.false_eq_true] at hinv

lemma runFetch_final_no_raise (tempDir f : String) (oc : FetchOutcome)
    (st : Entry) (hraise : oc.raises = false) :
    (runFetch tempDir f oc st).final
      = pickAndFinish tempDir f oc.files (applyHooks st oc.events) := by
  unfold runFetch
  simp [hraise]

/-- C9: when the fetch was invoked and completed without raising, the
executor prefers the first directory entry matching the requested output
extension; failing that, the first remaining file; an empty working
directory fails the task. -/
theorem artifact_selection (ffmpeg : Bool) (fmt : String)
    (quality : Option String) (tempDir : String) (oc : FetchOutcome)
    (hinv : (run_download ffmpeg fmt quality tempDir oc initEntry).invoked
      = true)
    (hraise : oc.raises = false) :
    (∀ fn, oc.files.find? (matchesExt (pyLower fmt)) = some fn →
      (run_download ffmpeg fmt quality tempDir oc initEntry).final.status
          = Status.finished ∧
      (run_download ffmpeg fmt quality tempDir oc initEntry).final.file_path
          = some (tempDir ++ "/" ++ fn)) ∧
    (oc.files.find? (matchesExt (pyLower fmt)) = none →
      (∀ fn rest, oc.files = fn :: rest →
        (run_download ffmpeg fmt quality tempDir oc initEntry).final.status
            = Status.finished ∧
        (run_download ffmpeg fmt quality tempDir oc
            initEntry).final.file_path = some (tempDir ++ "/" ++ fn)) ∧
      (oc.files = [] →
        (run_download ffmpeg fmt quality tempDir oc initEntry).final.status
          = Status.error)) := by
  have hrf := run_download_eq_runFetch ffmpeg fmt quality tempDir oc hinv
  have hfin := runFetch_final_no_raise tempDir (pyLower fmt) oc initEntry hraise
  rw [hrf, hfin]
  constructor
  · intro fn hfn
    rw [pickAndFinish_eq_of_find _ _ _ _ fn hfn]
    exact ⟨rfl, rfl⟩
  · intro hnone
    constructor
    · intro fn rest hfiles
      rw [pickAndFinish_eq_of_first _ _ _ _ fn rest hnone hfiles]
      exact ⟨rfl, rfl⟩
    · intro hfiles
      rw [pickAndFinish_eq_of_empty _ _ _ _ hnone hfiles]

/-- Witness for `artifact_selection`: with directory
`["x.mkv", "y.mp4"]` an `mp4` request selects `y.mp4`. -/
theorem artifact_selection_witness :
    ((run_download true "mp4" none "T" ⟨[], false, ["x.mkv", "y.mp4"]⟩
        initEntry).invoked = true ∧
      (["x.mkv", "y.mp4"].find? (matchesExt (pyLower "mp4"))
        = some "y.mp4")) ∧
    ((run_download true "mp4" none "T" ⟨[], false, ["x.mkv", "y.mp4"]⟩
        initEntry).final.status = Status.finished ∧
      (run_download true "mp4" none "T" ⟨[], false, ["x.mkv", "y.mp4"]⟩
        initEntry).final.file_path = some ("T" ++ "/" ++ "y.mp4")) :=
  ⟨⟨by decide, by decide⟩,
    (artifact_selection true "mp4" none "T" ⟨[], false, ["x.mkv", "y.mp4"]⟩
      (by decide) rfl).1 "y.mp4" (by decide)⟩

/-! ### C6: batch submission -/

lemma collect_ids_length (i : Nat) (l : List Item) :
    (collect_ids i l).length
      = (l.filter (fun it => validUrl it.url)).length := by
  induction l generalizing i with
  | nil => rfl
  | cons it rest ih =>
      by_cases hv : validUrl it.url = true
      · simp [collect_ids, hv, List.filter_cons, ih]
      · simp [collect_ids, hv, List.filter_cons, ih]

lemma collect_ids_ge (i : Nat) (l : List Item) :
    ∀ j ∈ collect_ids i l, i ≤ j := by
  induction l generalizing i with
  | nil => intro j hj; simp [collect_ids] at hj
  | cons it rest ih =>
      intro j hj
      by_cases hv : validUrl it.url = true
      · simp only [collect_ids, hv, if_true, List.mem_cons] at hj
        rcases hj with rfl | hj
        · exact le_refl j
        · exact le_trans (Nat.le_succ i) (ih (i + 1) j hj)
      · simp only [collect_ids, hv, if_false] at hj
        exact le_trans (Nat.le_succ i) (ih (i + 1) j hj)

lemma collect_ids_nodup (i : Nat) (l : List Item) :
    (collect_ids i l).Nodup := by
  induction l generalizing i with
  | nil => simp [collect_ids]
  | cons it rest ih =>
      by_cases hv : validUrl it.url = true
      · simp only [collect_ids, hv, if_true]
        refine List.nodup_cons.mpr ⟨?_, ih (i + 1)⟩
        intro hmem
        have := collect_ids_ge (i + 1) rest i hmem
        omega
      · simp only [collect_ids, hv, if_false]
        exact ih (i + 1)

/-- C6 (amended): items with a missing or empty source locator are
silently skipped and produce no task; every item with a non-empty locator
yields exactly one fresh task identifier; the only rejection case is a
missing / non-list / **empty** `items` payload — a non-empty batch whose
items are all skipped is *not* rejected and yields an empty identifier
list. -/
theorem batch_submission (its : List Item) (hne : its ≠ []) :
    start_download (some its) = Except.ok (collect_ids 0 its) ∧
    (collect_ids 0 its).length
      = (its.filter (fun it => validUrl it.url)).length ∧
    (collect_ids 0 its).Nodup ∧
    start_download none = Except.error "No items provided" ∧
    start_download (some []) = Except.error "No items provided" := by
  refine ⟨?_, collect_ids_length 0 its, collect_ids_nodup 0 its, rfl, rfl⟩
  have hE : its.isEmpty = false := by
    cases its with
    | nil => exact absurd rfl hne
    | cons a l => rfl
  simp [start_download, hE]

/-- Witness for `batch_submission` at the batch
`[{url:"A"}, {url:""}, {url:"B"}]`: exactly two identifiers. -/
theorem batch_submission_witness :
    (([⟨some "A", some "mp4", none⟩, ⟨some "", some "mp4", none⟩,
        ⟨some "B", some "mp4", none⟩] : List Item) ≠ [] ∧
      start_download (some [⟨some "A", some "mp4", none⟩,
          ⟨some "", some "mp4", none⟩, ⟨some "B", some "mp4", none⟩])
        = Except.ok (collect_ids 0 [⟨some "A", some "mp4", none⟩,
            ⟨some "", some "mp4", none⟩, ⟨some "B", some "mp4", none⟩]) ∧
      (collect_ids 0 [⟨some "A", some "mp4", none⟩,
          ⟨some "", some "mp4", none⟩, ⟨some "B", some "mp4", none⟩]).length
        = ([⟨some "A", some "mp4", none⟩, ⟨some "", some "mp4", none⟩,
            ⟨some "B", some "mp4", none⟩].filter
              (fun it : Item => validUrl it.url)).length) ∧
    collect_ids 0 [⟨some "A", some "mp4", none⟩, ⟨some "", some "mp4", none⟩,
        ⟨some "B", some "mp4", none⟩] = [0, 2] ∧
    (collect_ids 0 [⟨some "A", some "mp4", none⟩, ⟨some "", some "mp4", none⟩,
        ⟨some "B", some "mp4", none⟩]).length = 2 :=
  ⟨⟨by decide,
    (batch_submission [⟨some "A", some "mp4", none⟩,
        ⟨some "", some "mp4", none⟩, ⟨some "B", some "mp4", none⟩]
      (by decide)).1,
    (batch_submission [⟨some "A", some "mp4", none⟩,
        ⟨some "", some "mp4", none⟩, ⟨some "B", some "mp4", none⟩]
      (by decide)).2.1⟩,
   by decide, by decide⟩

/-- C6 counterexample: a non-empty batch whose only item has an empty url
is not rejected — the endpoint answers with an empty identifier list, not
with the claimed `no valid items` error. -/
theorem all_skipped_batch_not_rejected :
    start_download (some [⟨some "", some "mp4", none⟩]) = Except.ok [] ∧
    ¬ ∃ msg, start_download (some [⟨some "", some "mp4", none⟩])
        = Except.error msg := by
  refine ⟨rfl, ?_⟩
  rintro ⟨msg, hmsg⟩
  rw [show start_download (some [⟨some "", some "mp4", none⟩])
      = Except.ok [] from rfl] at hmsg
  exact Except.noConfusion hmsg

/-! ### C8: the progress stream -/

lemma gen_reaches (states : Nat → Entry) :
    ∀ (N i fuel : Nat), isTerminal (states (i + N)).status = true →
      (∀ j, j < N → isTerminal (states (i + j)).status = false) →
      N < fuel →
      gen states fuel i
        = (List.range (N + 1)).map (fun j => states (i + j)) := by
  intro N
  induction N with
  | zero =>
      intro i fuel hterm hmin hf
      rcases fuel with _ | m
      · omega
      · simp only [Nat.add_zero] at hterm
        simp [gen, hterm, List.range_succ]
  | succ N ih =>
      intro i fuel hterm hmin hf
      rcases fuel with _ | m
      · omega
      · have h0 : isTerminal (states i).status = false := by
          have := hmin 0 (by omega)
          simpa using this
        have hterm' : isTerminal (states (i + 1 + N)).status = true := by
          rwa [show i + (N + 1) = i + 1 + N by omega] at hterm
        have hmin' : ∀ j, j < N → isTerminal (states (i + 1 + j)).status
            = false := by
          intro j hj
          have := hmin (j + 1) (by omega)
          rwa [show i + (j + 1) = i + 1 + j by omega] at this
        have hrec := ih (i + 1) m hterm' hmin' (by omega)
        show states i :: (if isTerminal (states i).status = true then []
          else gen states m (i + 1)) = _
        rw [h0]
        simp only [Bool.false_eq_true, if_false, hrec]
        have hr : (List.range (N + 1 + 1)).map (fun j => states (i + j))
            = states (i + 0) ::
              (List.range (N + 1)).map ((fun j => states (i + j)) ∘ Nat.succ) := by
          rw [List.range_succ_eq_map, List.map_cons, List.map_map]
        rw [hr]
        have hmapeq : (List.range (N + 1)).map
              ((fun j => states (i + j)) ∘ Nat.succ)
            = (List.range (N + 1)).map (fun j => states (i + 1 + j)) := by
          apply List.map_congr_left
          intro j _
          show states (i + Nat.succ j) = states (i + 1 + j)
          exact congrArg states (by omega)
        rw [hmapeq]
        simp

/-- C8: the progress stream for a task whose snapshot sequence reaches a
terminal status at tick `N` (and not before) emits exactly the snapshots up
to and including the first terminal one and then closes; in particular a
stream opened on an already-terminal task emits exactly that one terminal
snapshot. -/
theorem progress_stream_terminates (states : Nat → Entry) (N : Nat)
    (hterm : isTerminal (states N).status = true)
    (hmin : ∀ i, i < N → isTerminal (states i).status = false)
    (fuel : Nat) (hf : N < fuel) :
    gen states fuel 0 = (List.range N).map states ++ [states N] ∧
    (N = 0 → gen states fuel 0 = [states 0]) := by
  have h := gen_reaches states N 0 fuel (by simpa using hterm)
    (fun j hj => by simpa using hmin j hj) hf
  have hmap : (List.range (N + 1)).map (fun j => states (0 + j))
      = (List.range (N + 1)).map states := by
    apply List.map_congr_left
    intro j _
    exact congrArg states (Nat.zero_add j)
  rw [hmap] at h
  constructor
  · rw [h, List.range_succ, List.map_append]
    rfl
  · intro h0
    subst h0
    rw [h]
    rfl

/-- Witness for `progress_stream_terminates`: a stream opened on an
already-finished task yields exactly one snapshot. -/
theorem progress_stream_terminates_witness :
    isTerminal ({ initEntry with status := Status.finished } : Entry).status
        = true ∧
    gen (fun _ => { initEntry with status := Status.finished }) 5 0
      = [{ initEntry with status := Status.finished }] :=
  ⟨by decide,
    (progress_stream_terminates
      (fun _ => { initEntry with status := Status.finished }) 0 (by decide)
      (fun i hi => absurd hi (Nat.not_lt_zero i)) 5 (by decide)).2 rfl⟩

/-! ### C7: the format resolver -/

lemma getVal_append (m m' : List (Nat × Nat)) (k : Nat) :
    getVal (m ++ m') k =
      match getVal m k with
      | some t => some t
      | none => getVal m' k := by
  induction m with
  | nil => rfl
  | cons p rest ih =>
      by_cases hp : p.1 = k
      · simp [getVal, hp]
      · simp [getVal, hp, ih]

lemma getVal_singleton_self (k v : Nat) :
    getVal [(k, v)] k = some v := by
  simp [getVal]

lemma getVal_singleton_ne (k v k' : Nat) (h : k ≠ k') :
    getVal [(k, v)] k' = none := by
  simp [getVal, h]

lemma getVal_setKey_self (m : List (Nat × Nat)) (k v t : Nat)
    (h : getVal m k = some t) :
    getVal (setKey m k v) k = some v := by
  induction m with
  | nil => simp [getVal] at h
  | cons p rest ih =>
      by_cases hp : p.1 = k
      · simp [getVal, setKey, hp]
      · simp only [getVal, hp, if_false] at h
        simp [getVal, setKey, hp, ih h]

lemma getVal_setKey_ne (m : List (Nat × Nat)) (k v k' : Nat) (h : k' ≠ k) :
    getVal (setKey m k v) k' = getVal m k' := by
  induction m with
  | nil => rfl
  | cons p rest ih =>
      by_cases hp : p.1 = k
      · have hkk : ¬(k = k') := fun hc => h hc.symm
        have hpk : ¬(p.1 = k') := by rw [hp]; exact hkk
        simp [getVal, setKey, hp, hkk, hpk, ih]
      · by_cases hpk : p.1 = k'
        · simp [getVal, setKey, hp, hpk, h]
        · simp [getVal, setKey, hp, hpk, ih]

lemma keys_setKey (m : List (Nat × Nat)) (k v : Nat) :
    (setKey m k v).map Prod.fst = m.map Prod.fst := by
  induction m with
  | nil => rfl
  | cons p rest ih =>
      by_cases hp : p.1 = k
      · simp [setKey, hp, ih]
      · simp [setKey, hp, ih]

lemma getVal_none_iff (m : List (Nat × Nat)) (k : Nat) :
    getVal m k = none ↔ k ∉ m.map Prod.fst := by
  induction m with
  | nil => simp [getVal]
  | cons p rest ih =>
      by_cases hp : p.1 = k
      · simp [getVal, hp]
      · have hne : ¬(k = p.1) := fun hc => hp hc.symm
        simp only [getVal, hp, if_false, List.map_cons, List.mem_cons]
        rw [ih]
        constructor
        · intro hk
          rintro (hc | hc)
          · exact hne hc
          · exact hk hc
        · intro hk hc
          exact hk (Or.inr hc)

lemma metricTbrs_append (ok : Fmt → Bool) (metric : Fmt → Option Nat)
    (l : List Fmt) (f : Fmt) (h : Nat) :
    metricTbrs ok metric (l ++ [f]) h =
      metricTbrs ok metric l h ++
        (if (ok f && (metric f == some h) && (h != 0)) = true
          then [f.tbr] else []) := by
  unfold metricTbrs
  rw [List.filter_append, List.map_append]
  by_cases hc : (ok f && (metric f == some h) && (h != 0)) = true
  · simp [List.filter_cons, hc]
  · simp [List.filter_cons, hc]

lemma getVal_append_of_none (m m' : List (Nat × Nat)) (k : Nat)
    (h : getVal m k = none) : getVal (m ++ m') k = getVal m' k := by
  rw [getVal_append, h]

lemma getVal_append_of_some (m m' : List (Nat × Nat)) (k t : Nat)
    (h : getVal m k = some t) : getVal (m ++ m') k = some t := by
  rw [getVal_append, h]

/-- The deduplication invariant of one class loop of `get_formats`: keys are
unique, a key is absent exactly when no qualifying descriptor carries that
metric value, and the stored bitrate for a present key is the maximum
overall bitrate among the qualifying descriptors with that metric value. -/
def DedupInv (ok : Fmt → Bool) (metric : Fmt → Option Nat)
    (fmts : List Fmt) : Prop :=
  (((fmts.foldl (dedupStep ok metric) []).map Prod.fst).Nodup) ∧
  (∀ h, (getVal (fmts.foldl (dedupStep ok metric) []) h = none ↔
      metricTbrs ok metric fmts h = [])) ∧
  (∀ h t, getVal (fmts.foldl (dedupStep ok metric) []) h = some t →
      t ∈ metricTbrs ok metric fmts h ∧
        ∀ u ∈ metricTbrs ok metric fmts h, u ≤ t)

lemma dedup_fold_append (ok : Fmt → Bool) (metric : Fmt → Option Nat)
    (l : List Fmt) (f : Fmt) :
    (l ++ [f]).foldl (dedupStep ok metric) []
      = dedupStep ok metric (l.foldl (dedupStep ok metric) []) f := by
  rw [List.foldl_append]
  rfl

lemma dedup_step_noop (ok : Fmt → Bool) (metric : Fmt → Option Nat)
    (l : List Fmt) (f : Fmt)
    (hstep : dedupStep ok metric (l.foldl (dedupStep ok metric) []) f
      = l.foldl (dedupStep ok metric) [])
    (hpred : ∀ hh, (ok f && (metric f == some hh) && (hh != 0)) = false)
    (ih : DedupInv ok metric l) : DedupInv ok metric (l ++ [f]) := by
  obtain ⟨ihN, ihnone, ihsome⟩ := ih
  have htb : ∀ hh, metricTbrs ok metric (l ++ [f]) hh
      = metricTbrs ok metric l hh := by
    intro hh
    rw [metricTbrs_append, hpred hh]
    simp
  refine ⟨?_, fun hh => ?_, fun hh t ht => ?_⟩
  · rw [dedup_fold_append, hstep]; exact ihN
  · rw [dedup_fold_append, hstep, htb hh]; exact ihnone hh
  · rw [dedup_fold_append, hstep] at ht
    rw [htb hh]
    exact ihsome hh t ht

lemma dedup_fold_spec (ok : Fmt → Bool) (metric : Fmt → Option Nat) :
    ∀ fmts : List Fmt, DedupInv ok metric fmts := by
  intro fmts
  induction fmts using List.reverseRecOn with
  | nil =>
      refine ⟨by simp, fun h => ?_, fun h t ht => ?_⟩
      · simp [getVal, metricTbrs]
      · simp [getVal] at ht
  | append_singleton l f ih =>
      by_cases hok : ok f = true
      · rcases hmf : metric f with _ | h0
        · -- no metric value: the loop skips the descriptor
          refine dedup_step_noop ok metric l f ?_ ?_ ih
          · simp [dedupStep, hok, hmf]
          · intro hh; rw [hmf]; simp
        · by_cases hz : h0 = 0
          · -- metric 0 is falsy: the loop skips the descriptor
            refine dedup_step_noop ok metric l f ?_ ?_ ih
            · simp [dedupStep, hok, hmf, hz]
            · intro hh
              by_cases hhh : hh = h0
              · rw [hmf, hhh, hz]; simp
              · rw [hmf]
                have hb : (h0 == hh) = false :=
                  beq_eq_false_iff_ne.mpr (fun hc => hhh hc.symm)
                have hb' : ((some h0 : Option Nat) == some hh) = false := hb
                simp [hb']
          · -- the descriptor qualifies for metric value h0
            obtain ⟨ihN, ihnone, ihsome⟩ := ih
            have hpred0 : (ok f && (metric f == some h0) && (h0 != 0))
                = true := by
              rw [hok, hmf]
              simp [hz]
            have hpredne : ∀ hh, hh ≠ h0 →
                (ok f && (metric f == some hh) && (hh != 0)) = false := by
              intro hh hne
              rw [hmf]
              have hb : (h0 == hh) = false :=
                beq_eq_false_iff_ne.mpr (fun hc => hne hc.symm)
              have hb' : ((some h0 : Option Nat) == some hh) = false := hb
              simp [hb']
            have htbrs0 : metricTbrs ok metric (l ++ [f]) h0
                = metricTbrs ok metric l h0 ++ [f.tbr] := by
              rw [metricTbrs_append, hpred0]
              simp
            have htbrsne : ∀ hh, hh ≠ h0 → metricTbrs ok metric (l ++ [f]) hh
                = metricTbrs ok metric l hh := by
              intro hh hne
              rw [metricTbrs_append, hpredne hh hne]
              simp
            set m := l.foldl (dedupStep ok metric) [] with hm
            rcases hv : getVal m h0 with _ | t0
            · -- the key is new: the dict gains the pair (h0, f.tbr)
              have hstep : dedupStep ok metric m f = m ++ [(h0, f.tbr)] := by
                simp [dedupStep, hok, hmf, hz, hv]
              have hempty : metricTbrs ok metric l h0 = [] :=
                (ihnone h0).mp hv
              refine ⟨?_, fun hh => ?_, fun hh t ht => ?_⟩
              · rw [dedup_fold_append, ← hm, hstep, List.map_append]
                have hkey : h0 ∉ m.map Prod.fst :=
                  (getVal_none_iff m h0).mp hv
                simp [List.nodup_append, ihN, hkey]
              · rw [dedup_fold_append, ← hm, hstep]
                by_cases hhh : hh = h0
                · subst hhh
                  rw [getVal_append_of_none m _ hh hv,
                    getVal_singleton_self, htbrs0]
                  simp
                · rw [htbrsne hh hhh]
                  rcases hmv : getVal m hh with _ | t
                  · rw [getVal_append_of_none m _ hh hmv,
            getVal_singleton_ne h0 f.tbr hh (fun hc => hhh hc.symm)]
                    rw [← ihnone hh, hmv]
                  · rw [getVal_append_of_some m _ hh t hmv]
                    rw [← ihnone hh, hmv]
              · rw [dedup_fold_append, ← hm, hstep] at ht
                by_cases hhh : hh = h0
                · subst hhh
                  rw [getVal_append_of_none m _ hh hv,
                    getVal_singleton_self] at ht
                  obtain rfl := Option.some.inj ht
                  rw [htbrs0, hempty]
                  simp
                · rw [htbrsne hh hhh]
                  rcases hmv : getVal m hh with _ | t'
                  · rw [getVal_append_of_none m _ hh hmv,
            getVal_singleton_ne h0 f.tbr hh (fun hc => hhh hc.symm)] at ht
                    exact absurd ht (by simp)
                  · rw [getVal_append_of_some m _ hh t' hmv] at ht
                    obtain rfl := Option.some.inj ht
                    exact ihsome hh t' hmv
            · by_cases hlt : t0 < f.tbr
              · -- strictly larger bitrate: the stored pair is replaced
                have hstep : dedupStep ok metric m f = setKey m h0 f.tbr := by
                  simp [dedupStep, hok, hmf, hz, hv, hlt]
                refine ⟨?_, fun hh => ?_, fun hh t ht => ?_⟩
                · rw [dedup_fold_append, ← hm, hstep, keys_setKey]
                  exact ihN
                · rw [dedup_fold_append, ← hm, hstep]
                  by_cases hhh : hh = h0
                  · subst hhh
                    rw [getVal_setKey_self m hh f.tbr t0 hv, htbrs0]
                    simp
                  · rw [getVal_setKey_ne m h0 f.tbr hh hhh, htbrsne hh hhh]
                    exact ihnone hh
                · rw [dedup_fold_append, ← hm, hstep] at ht
                  by_cases hhh : hh = h0
                  · subst hhh
                    rw [getVal_setKey_self m hh f.tbr t0 hv] at ht
                    obtain rfl := Option.some.inj ht
                    rw [htbrs0]
                    refine ⟨List.mem_append_right _ (by simp), ?_⟩
                    intro u hu
                    rcases List.mem_append.mp hu with hu | hu
                    · exact le_trans ((ihsome hh t0 hv).2 u hu)
                        (le_of_lt hlt)
                    · simp at hu
                      omega
                  · rw [getVal_setKey_ne m h0 f.tbr hh hhh] at ht
                    rw [htbrsne hh hhh]
                    exact ihsome hh t ht
              · -- not strictly larger: the dict is unchanged, the stored
                -- bitrate still dominates the new report
                have hstep : dedupStep ok metric m f = m := by
                  simp [dedupStep, hok, hmf, hz, hv, hlt]
                refine ⟨?_, fun hh => ?_, fun hh t ht => ?_⟩
                · rw [dedup_fold_append, ← hm, hstep]
                  exact ihN
                · rw [dedup_fold_append, ← hm, hstep]
                  by_cases hhh : hh = h0
                  · subst hhh
                    rw [hv, htbrs0]
                    constructor
                    · intro hc; exact absurd hc (by simp)
                    · intro hc; exact absurd hc (by simp)
                  · rw [htbrsne hh hhh]
                    exact ihnone hh
                · rw [dedup_fold_append, ← hm, hstep] at ht
                  by_cases hhh : hh = h0
                  · subst hhh
                    rw [hv] at ht
                    obtain rfl := Option.some.inj ht
                    rw [htbrs0]
                    refine ⟨List.mem_append_left _ (ihsome hh t0 hv).1, ?_⟩
                    intro u hu
                    rcases List.mem_append.mp hu with hu | hu
                    · exact (ihsome hh t0 hv).2 u hu
                    · simp at hu
                      omega
                  · rw [htbrsne hh hhh]
                    exact ihsome hh t ht
      · -- the class check rejects the descriptor
        refine dedup_step_noop ok metric l f ?_ ?_ ih
        · simp [dedupStep, hok]
        · intro hh
          have hof : ok f = false := by
            cases hof : ok f
            · rfl
            · exact absurd hof hok
          simp [hof]

lemma sortDesc_sorted_ge (l : List Nat) :
    (sortDesc l).Sorted (fun a b => b ≤ a) := by
  haveI h1 : IsTotal Nat (fun a b => b ≤ a) := ⟨fun a b => le_total b a⟩
  haveI h2 : IsTrans Nat (fun a b => b ≤ a) :=
    ⟨fun _ _ _ hab hbc => le_trans hbc hab⟩
  exact List.sorted_insertionSort _ l

lemma sortDesc_perm (l : List Nat) : List.Perm (sortDesc l) l :=
  List.perm_insertionSort _ l

lemma sortDesc_mem (l : List Nat) (a : Nat) : a ∈ sortDesc l ↔ a ∈ l :=
  (sortDesc_perm l).mem_iff

lemma sortDesc_nodup (l : List Nat) (h : l.Nodup) : (sortDesc l).Nodup :=
  ((sortDesc_perm l).nodup_iff).mpr h

lemma sortDesc_sorted_gt (l : List Nat) (h : l.Nodup) :
    (sortDesc l).Sorted (fun a b => a > b) := by
  have hs := sortDesc_sorted_ge l
  have hn := sortDesc_nodup l h
  refine List.Pairwise.imp ?_ (List.Pairwise.and hs hn)
  rintro a b ⟨hle, hne⟩
  exact lt_of_le_of_ne hle (fun hc => hne hc.symm)

lemma get_formats_video_keys (fmts : List Fmt) :
    (get_formats fmts).1.map Prod.fst
      = sortDesc ((video_map fmts).map Prod.fst) := by
  simp only [get_formats, List.map_map]
  rw [show (Prod.fst ∘ fun h : Nat => (h, label_from_height h)) = id from
    rfl, List.map_id]

lemma get_formats_audio_keys (fmts : List Fmt) :
    (get_formats fmts).2.map Prod.fst
      = sortDesc ((audio_map fmts).map Prod.fst) := by
  simp only [get_formats, List.map_map]
  rw [show (Prod.fst ∘ fun a : Nat => (a, toString a ++ " kbps")) = id from
    rfl, List.map_id]

lemma dedup_keys_mem_iff (ok : Fmt → Bool) (metric : Fmt → Option Nat)
    (fmts : List Fmt) (h : Nat) :
    h ∈ (fmts.foldl (dedupStep ok metric) []).map Prod.fst ↔
      metricTbrs ok metric fmts h ≠ [] := by
  obtain ⟨-, hnone, -⟩ := dedup_fold_spec ok metric fmts
  constructor
  · intro hmem hc
    exact ((getVal_none_iff _ h).mp ((hnone h).mpr hc)) hmem
  · intro hne
    by_contra hmem
    exact hne ((hnone h).mp ((getVal_none_iff _ h).mpr hmem))

lemma dedup_step_skips_le (ok : Fmt → Bool) (metric : Fmt → Option Nat)
    (m : List (Nat × Nat)) (g : Fmt) (h0 t : Nat)
    (hmg : metric g = some h0) (hv : getVal m h0 = some t)
    (hle : g.tbr ≤ t) :
    dedupStep ok metric m g = m := by
  by_cases hok : ok g = true
  · have hnlt : ¬(t < g.tbr) := not_lt.mpr hle
    by_cases hz : h0 = 0
    · simp [dedupStep, hok, hmg, hz]
    · simp [dedupStep, hok, hmg, hz, hv, hnlt]
  · simp [dedupStep, hok]

/-- C7: per media class, the resolver's deduplication map keeps, for each
distinct truthy quality-metric value, exactly one entry whose stored
overall bitrate is the maximum among the qualifying descriptors sharing
that metric value; a later qualifying descriptor whose bitrate does not
strictly exceed the stored one (ties included) leaves the map unchanged,
so ties resolve to the first-seen maximal descriptor; the emitted options
are the metric values sorted strictly descending (hence duplicate-free),
a metric value is emitted iff some qualifying stream carries it, and a
class with no qualifying streams yields an empty sequence, not an error. -/
theorem get_formats_spec (fmts : List Fmt) :
    (∀ h t, getVal (video_map fmts) h = some t →
        t ∈ metricTbrs video_ok Fmt.height fmts h ∧
          ∀ u ∈ metricTbrs video_ok Fmt.height fmts h, u ≤ t) ∧
    (∀ h, getVal (video_map fmts) h = none ↔
        metricTbrs video_ok Fmt.height fmts h = []) ∧
    ((get_formats fmts).1.map Prod.fst).Sorted (fun a b => a > b) ∧
    (∀ h, h ∈ (get_formats fmts).1.map Prod.fst ↔
        metricTbrs video_ok Fmt.height fmts h ≠ []) ∧
    ((∀ h, metricTbrs video_ok Fmt.height fmts h = []) →
        (get_formats fmts).1 = []) ∧
    (∀ h t, getVal (audio_map fmts) h = some t →
        t ∈ metricTbrs audio_ok Fmt.abr fmts h ∧
          ∀ u ∈ metricTbrs audio_ok Fmt.abr fmts h, u ≤ t) ∧
    (∀ h, getVal (audio_map fmts) h = none ↔
        metricTbrs audio_ok Fmt.abr fmts h = []) ∧
    ((get_formats fmts).2.map Prod.fst).Sorted (fun a b => a > b) ∧
    (∀ h, h ∈ (get_formats fmts).2.map Prod.fst ↔
        metricTbrs audio_ok Fmt.abr fmts h ≠ []) ∧
    ((∀ h, metricTbrs audio_ok Fmt.abr fmts h = []) →
        (get_formats fmts).2 = []) ∧
    (∀ (m : List (Nat × Nat)) (g : Fmt) (h0 t : Nat),
        g.height = some h0 → getVal m h0 = some t → g.tbr ≤ t →
        dedupStep video_ok Fmt.height m g = m) ∧
    (∀ (m : List (Nat × Nat)) (g : Fmt) (h0 t : Nat),
        g.abr = some h0 → getVal m h0 = some t → g.tbr ≤ t →
        dedupStep audio_ok Fmt.abr m g = m) := by
  obtain ⟨hVN, hVnone, hVsome⟩ := dedup_fold_spec video_ok Fmt.height fmts
  obtain ⟨hAN, hAnone, hAsome⟩ := dedup_fold_spec audio_ok Fmt.abr fmts
  have hVmem : ∀ h, h ∈ (get_formats fmts).1.map Prod.fst ↔
      metricTbrs video_ok Fmt.height fmts h ≠ [] := by
    intro h
    rw [get_formats_video_keys, sortDesc_mem]
    exact dedup_keys_mem_iff video_ok Fmt.height fmts h
  have hAmem : ∀ h, h ∈ (get_formats fmts).2.map Prod.fst ↔
      metricTbrs audio_ok Fmt.abr fmts h ≠ [] := by
    intro h
    rw [get_formats_audio_keys, sortDesc_mem]
    exact dedup_keys_mem_iff audio_ok Fmt.abr fmts h
  refine ⟨hVsome, hVnone, ?_, hVmem, ?_, hAsome, hAnone, ?_, hAmem, ?_,
    ?_, ?_⟩
  · rw [get_formats_video_keys]
    exact sortDesc_sorted_gt _ hVN
  · intro hall
    rcases hout : (get_formats fmts).1 with _ | ⟨x, xs⟩
    · rfl
    · exfalso
      have hx : x.1 ∈ (get_formats fmts).1.map Prod.fst := by
        rw [hout]
        exact List.mem_map_of_mem Prod.fst (List.mem_cons_self x xs)
      exact (hVmem x.1).mp hx (hall x.1)
  · rw [get_formats_audio_keys]
    exact sortDesc_sorted_gt _ hAN
  · intro hall
    rcases hout : (get_formats fmts).2 with _ | ⟨x, xs⟩
    · rfl
    · exfalso
      have hx : x.1 ∈ (get_formats fmts).2.map Prod.fst := by
        rw [hout]
        exact List.mem_map_of_mem Prod.fst (List.mem_cons_self x xs)
      exact (hAmem x.1).mp hx (hall x.1)
  · intro m g h0 t hmg hv hle
    exact dedup_step_skips_le video_ok Fmt.height m g h0 t hmg hv hle
  · intro m g h0 t hmg hv hle
    exact dedup_step_skips_le audio_ok Fmt.abr m g h0 t hmg hv hle

/-- A small concrete catalog: two video-only streams at height 720 with
bitrates 100 and 300, one at height 1080 with bitrate 200, and one
audio-only stream at 128 kbps. -/
def demoCatalog : List Fmt :=
  [⟨some "h264", some "none", some 720, none, 100⟩,
   ⟨some "h264", some "none", some 720, none, 300⟩,
   ⟨some "h264", some "none", some 1080, none, 200⟩,
   ⟨some "none", some "aac", none, some 128, 130⟩]

/-- Witness for `get_formats_spec` on `demoCatalog`: at height 720 the
resolver keeps the higher bitrate 300, which bounds all qualifying
bitrates at that height, and height 1080 is emitted. -/
theorem get_formats_spec_witness :
    (getVal (video_map demoCatalog) 720 = some 300 ∧
      (300 ∈ metricTbrs video_ok Fmt.height demoCatalog 720 ∧
        ∀ u ∈ metricTbrs video_ok Fmt.height demoCatalog 720, u ≤ 300)) ∧
    (metricTbrs video_ok Fmt.height demoCatalog 1080 ≠ [] ∧
      1080 ∈ (get_formats demoCatalog).1.map Prod.fst) :=
  ⟨⟨by decide, (get_formats_spec demoCatalog).1 720 300 (by decide)⟩,
   ⟨by decide,
    ((get_formats_spec demoCatalog).2.2.2.1 1080).mpr (by decide)⟩⟩

end YtApi
